import Mathlib

/-
  Verification development for the nebula GO executor and row codec.

  The definitions below are shallow embeddings of the functions in
  src/graph/GoExecutor.cpp and src/dataman/NebulaCodecImpl.cpp.
  External collaborators (RowReader, RowWriter, the back tracker) that are
  declared but not defined in the covered sources are modelled from the
  specification and marked as such in their doc comments.
-/

namespace Nebula

/-- Property types of the storage schema (nebula::cpp2::SupportedType). -/
inductive SupportedType
  | BOOL | INT | VID | FLOAT | DOUBLE | STRING
  | TIMESTAMP | YEAR | YEARMONTH | DATE | DATETIME | PATH | UNKNOWN
  deriving DecidableEq, Repr

/-- Opaque payload of a C++ double; the modelled code only copies doubles around and never
computes with them, so the payload is carried as an uninterpreted value. -/
structure F64Bits where
  bits : Int
  deriving DecidableEq, Repr

/-- Opaque payload of a C++ float, carried uninterpreted for the same reason as F64Bits. -/
structure F32Bits where
  bits : Int
  deriving DecidableEq, Repr

/-- Runtime value of the expression evaluator: VariantType is the boost::variant over
int64_t, double, bool and std::string, in that tag order. -/
inductive VariantType
  | vInt (x : Int)
  | vDouble (d : F64Bits)
  | vBool (b : Bool)
  | vStr (s : String)
  deriving DecidableEq, Repr

/-! ## Completeness handling (GoExecutor::stepOut and GoExecutor::fetchVertexProps) -/

/-- Outcome of a storage fan-out continuation with respect to the response completeness. -/
inductive CompletenessAction
  | failed
  | loggedAndContinued
  | continuedNormal
  deriving DecidableEq, Repr

/-- Continuation of getNeighbors inside GoExecutor::stepOut: completeness 0 fails the query
via doError, any other completeness different from 100 logs the failed parts and keeps
going, and completeness 100 continues normally. -/
def onStepOutCompleteness (completeness : Int) : CompletenessAction :=
  if completeness = 0 then .failed
  else if completeness ≠ 100 then .loggedAndContinued
  else .continuedNormal

/-- Continuation of getVertexProps inside GoExecutor::fetchVertexProps, with the same
completeness handling as the stepOut continuation. -/
def onVertexPropsCompleteness (completeness : Int) : CompletenessAction :=
  if completeness = 0 then .failed
  else if completeness ≠ 100 then .loggedAndContinued
  else .continuedNormal

/-! ## Step preparation and interim root lookup (GoExecutor::prepareStep,
GoExecutor::getPropFromInterim) -/

/-- GoExecutor::prepareStep: rejects the UPTO flag with an error and allocates the back
tracker exactly when the step count differs from 1. The returned boolean states whether a
back tracker was allocated. -/
def prepareStep (steps : Nat) (upto : Bool) : Except String Bool :=
  if upto then .error "UPTO not supported yet"
  else .ok (decide (steps ≠ 1))

/-- GoExecutor::getPropFromInterim: when a back tracker exists the root id is obtained from
it, otherwise the root id is the vertex id itself; the interim index is then consulted at
the root id. The back tracker is abstracted by its lookup function. -/
def getPropFromInterim (backTracker : Option (Int → Int))
    (indexLookup : Int → String → Except String VariantType)
    (id : Int) (prop : String) : Except String VariantType :=
  let rootId := match backTracker with
    | some lookup => lookup id
    | none => id
  indexLookup rootId prop

/-! ## Step-out property selection (GoExecutor::getStepOutProps) -/

/-- Reserved property names of the storage layer. -/
def propSRC : String := "_SRC"

def propDST : String := "_DST"

def propTYPE : String := "_TYPE"

def propRANK : String := "_RANK"

/-- Owner of a requested property (storage::cpp2::PropOwner). -/
inductive PropOwner
  | SOURCE | DEST | EDGE
  deriving DecidableEq, Repr

/-- The id union of a PropDef: either an edge type or a tag id. -/
inductive PropId
  | edgeType (t : Int)
  | tagId (t : Int)
  deriving DecidableEq, Repr

/-- A property requested from storage (storage::cpp2::PropDef). -/
structure PropDef where
  owner : PropOwner
  name : String
  pid : PropId
  deriving DecidableEq, Repr

/-- The DST request for one traversed edge type. -/
def dstPd (e : Int) : PropDef := ⟨.EDGE, propDST, .edgeType e⟩

/-- The RANK request for one traversed edge type. -/
def rankPd (e : Int) : PropDef := ⟨.EDGE, propRANK, .edgeType e⟩

/-- A source tag property request. -/
def srcPd (prop : String) (tagId : Int) : PropDef := ⟨.SOURCE, prop, .tagId tagId⟩

/-- An edge alias property request. -/
def aliasPd (prop : String) (e : Int) : PropDef := ⟨.EDGE, prop, .edgeType e⟩

/-- Final-step per-edge-type requests: DST for every traversed edge type, followed by RANK
when the traversal is reverse (the rank keys the subsequent edge-props lookup). -/
def baseProps (rev : Bool) (edgeTypes : List Int) : List PropDef :=
  edgeTypes.flatMap (fun e => dstPd e :: (if rev then [rankPd e] else []))

/-- Resolution of the referenced source tag properties against the schema manager; an
unresolvable tag name is an error. -/
def resolveSrcTagProps (toTagID : String → Option Int) :
    List (String × String) → Except String (List PropDef)
  | [] => .ok []
  | tp :: rest =>
    match toTagID tp.1 with
    | none => .error "No schema found for tag"
    | some tid =>
      match resolveSrcTagProps toTagID rest with
      | .error e => .error e
      | .ok out => .ok (srcPd tp.2 tid :: out)

/-- Resolution of the referenced edge alias properties; a property named DST is skipped
(it is already requested per traversed edge type) and an unresolvable edge is an error. -/
def resolveAliasProps (getEdgeTypeF : String → Option Int) :
    List (String × String) → Except String (List PropDef)
  | [] => .ok []
  | ap :: rest =>
    if ap.2 = propDST then resolveAliasProps getEdgeTypeF rest
    else
      match getEdgeTypeF ap.1 with
      | none => .error "the edge was not found"
      | some et =>
        match resolveAliasProps getEdgeTypeF rest with
        | .error e => .error e
        | .ok out => .ok (aliasPd ap.2 et :: out)

/-- GoExecutor::getStepOutProps: on a non-final hop only DST per traversed edge type is
requested; on the final hop DST (and, when reverse, RANK) per edge type, then all source
tag properties, and, only when the traversal is not reverse, the edge alias properties. -/
def getStepOutProps (isFinal rev : Bool) (edgeTypes : List Int)
    (toTagID getEdgeTypeF : String → Option Int)
    (srcTagProps aliasProps : List (String × String)) : Except String (List PropDef) :=
  if !isFinal then .ok (edgeTypes.map dstPd)
  else
    match resolveSrcTagProps toTagID srcTagProps with
    | .error e => .error e
    | .ok src =>
      if rev then .ok (baseProps rev edgeTypes ++ src)
      else
        match resolveAliasProps getEdgeTypeF aliasProps with
        | .error e => .error e
        | .ok ali => .ok (baseProps rev edgeTypes ++ src ++ ali)

/-! ## Edge holder and projection getters (GoExecutor::EdgeHolder,
GoExecutor::processFinalResult) -/

/-- Linear association lookup, the shallow model of the various unordered maps. -/
def assocLookup {α β : Type} [DecidableEq α] : List (α × β) → α → Option β
  | [], _ => none
  | p :: rest, k => if p.1 = k then some p.2 else assocLookup rest k

/-- Modelled from the spec: a result schema of the external dataman layer, abstracted by
the typed default value it supplies for each of its fields. -/
structure EdgeSchemaM where
  defaults : List (String × VariantType)
  deriving DecidableEq, Repr

/-- Modelled from the spec: an encoded row of the external dataman layer, abstracted as
the list of named properties a row reader can extract from it. -/
structure EncodedEdgeRow where
  rowProps : List (String × VariantType)
  deriving DecidableEq, Repr

/-- Modelled from the spec: RowReader::getPropByName of the external dataman layer; a
property missing from the row is an error. -/
def rowGetPropByName (r : EncodedEdgeRow) (prop : String) : Except String VariantType :=
  match assocLookup r.rowProps prop with
  | some v => .ok v
  | none => .error "prop not found in row"

/-- Modelled from the spec: RowReader::getDefaultProp of the external dataman layer, which
supplies the typed schema default of the named field. -/
def schemaGetDefaultProp (s : EdgeSchemaM) (prop : String) : Except String VariantType :=
  match assocLookup s.defaults prop with
  | some v => .ok v
  | none => .error "no default for prop"

/-- GoExecutor::EdgeHolder: rows keyed by source id, destination id and edge type, and the
schema cache keyed by positive edge type. -/
structure EdgeHolder where
  edges : List ((Int × Int × Int) × (EdgeSchemaM × EncodedEdgeRow))
  schemas : List (Int × EdgeSchemaM)

/-- GoExecutor::EdgeHolder::get: an absent key is an error, never a default; a present key
reads the stored row, and a missing property is again an error. -/
def EdgeHolder.get (h : EdgeHolder) (src dst : Int) (type : Int) (prop : String) :
    Except String VariantType :=
  match assocLookup h.edges (src, dst, type) with
  | none => .error "EdgeHolder could not find the edge key"
  | some sr =>
    match rowGetPropByName sr.2 prop with
    | .error _ => .error "Prop not found"
    | .ok v => .ok v

/-- GoExecutor::EdgeHolder::getDefaultProp: with no schema recorded for the type (the
reverse edge does not exist), the reserved DST, SRC and RANK properties default to the
integer 0 and any other property is an error; with a schema, its default is supplied. -/
def EdgeHolder.getDefaultProp (h : EdgeHolder) (type : Int) (prop : String) :
    Except String VariantType :=
  match assocLookup h.schemas type with
  | none =>
    if prop = propDST ∨ prop = propSRC ∨ prop = propRANK then .ok (.vInt 0)
    else .error "Get default prop failed in reversely traversal"
  | some s => schemaGetDefaultProp s prop

/-- std::abs on the signed edge type. -/
def absInt (x : Int) : Int := if x < 0 then -x else x

/-- The reverse-mode branch of the getAliasProp getter built inside
GoExecutor::processFinalResult: the named edge is resolved to its type; a mismatch with
the current record falls back to the reverse-side default of the absolute named type,
while a match reads the edge holder keyed by destination id, source id and the absolute
record edge type. -/
def getAliasPropRev (h : EdgeHolder) (getEdgeTypeF : String → Option Int)
    (srcId dstId edgeType : Int) (edgeName prop : String) : Except String VariantType :=
  match getEdgeTypeF edgeName with
  | none => .error "Get edge type failed in getters"
  | some type =>
    if edgeType ≠ type then h.getDefaultProp (absInt type) prop
    else h.get dstId srcId (absInt edgeType) prop

/-- The getEdgeDstId getter built inside GoExecutor::processFinalResult: with more than
one traversed edge type, an unresolvable edge name is an error and a type mismatch with
the current record yields 0; otherwise the record source id in reverse mode and the record
destination id in forward mode. -/
def getEdgeDstId (numEdgeTypes : Nat) (getEdgeTypeF : String → Option Int) (rev : Bool)
    (srcId dstId edgeType : Int) (edgeName : String) : Except String Int :=
  if 1 < numEdgeTypes then
    match getEdgeTypeF edgeName with
    | none => .error "Get edge type failed in getters"
    | some type =>
      if type ≠ edgeType then .ok 0
      else .ok (if rev then srcId else dstId)
  else .ok (if rev then srcId else dstId)

/-! ## Final-result row processing (GoExecutor::stepOut pushdown,
GoExecutor::processFinalResult) -/

/-- One edge record of the final get_neighbors response, as visited by the nested loops of
GoExecutor::processFinalResult: the source vertex of its row, the destination of the edge
and the type of its edge-data bucket. -/
structure EdgeRecord where
  srcId : Int
  dstId : Int
  edgeType : Int
  deriving DecidableEq, Repr

/-- GoExecutor::stepOut: the pushdown filter string attached to the get_neighbors request
is taken from the where wrapper only when the pushdown flag is on, the hop is final and
the traversal is not reverse; otherwise it stays empty. -/
def stepOutFilterPushdown (flagFilterPushdown isFinal rev : Bool)
    (wrapperPushdown : String) : String :=
  if flagFilterPushdown && isFinal && !rev then wrapperPushdown else ""

/-- The per-record loop of GoExecutor::processFinalResult: evaluate the local filter and
skip records evaluating to false, evaluate the yield columns into a record, deduplicate
by record hash when distinct is set, and hand each surviving record to the output
callback; an evaluation error aborts the whole query. The filter, the yield evaluation
and the hash (boost::hash_range) are abstracted as functions, and the emitted records are
collected in order. -/
def processRecords (filter : Option (EdgeRecord → Except String Bool))
    (yieldEval : EdgeRecord → Except String (List VariantType))
    (distinct : Bool) (hash : List VariantType → Nat) :
    List EdgeRecord → List Nat → Except String (List (List VariantType))
  | [], _ => .ok []
  | r :: rest, seen =>
    match (match filter with
           | none => Except.ok true
           | some f => f r) with
    | .error e => .error e
    | .ok keep =>
      if keep then
        match yieldEval r with
        | .error e => .error e
        | .ok record =>
          if distinct then
            if hash record ∈ seen then
              processRecords filter yieldEval distinct hash rest seen
            else
              match processRecords filter yieldEval distinct hash rest
                  (hash record :: seen) with
              | .error e => .error e
              | .ok out => .ok (record :: out)
          else
            match processRecords filter yieldEval distinct hash rest seen with
            | .error e => .error e
            | .ok out => .ok (record :: out)
      else processRecords filter yieldEval distinct hash rest seen

/-! ## Terminal response cells and column names (GoExecutor::toThriftResponse,
GoExecutor::getResultColumnNames) -/

/-- The thrift union behind one response cell (cpp2::ColumnValue); a freshly emplaced cell
that no case sets stays empty. -/
inductive ColumnValue
  | empty
  | boolVal (b : Bool)
  | integer (x : Int)
  | id (x : Int)
  | timestamp (x : Int)
  | singlePrecision (d : F64Bits)
  | doublePrecision (d : F64Bits)
  | str (s : String)
  deriving DecidableEq, Repr

/-- The per-cell switch of the callback in GoExecutor::toThriftResponse: the union member
is chosen by the declared column type; a declared type with no own case (UNKNOWN and the
reserved date kinds) picks the member from the runtime tag of the value, except that a
boolean runtime value leaves the freshly emplaced cell untouched. A boost::get on a
mismatching runtime value throws, modelled as an error. -/
def toColumnValue (t : SupportedType) (column : VariantType) : Except String ColumnValue :=
  match t with
  | .BOOL =>
    match column with
    | .vBool b => .ok (.boolVal b)
    | _ => .error "bad get of bool"
  | .INT =>
    match column with
    | .vInt x => .ok (.integer x)
    | _ => .error "bad get of int64"
  | .DOUBLE =>
    match column with
    | .vDouble d => .ok (.doublePrecision d)
    | _ => .error "bad get of double"
  | .FLOAT =>
    match column with
    | .vDouble d => .ok (.singlePrecision d)
    | _ => .error "bad get of double"
  | .STRING =>
    match column with
    | .vStr s => .ok (.str s)
    | _ => .error "bad get of string"
  | .TIMESTAMP =>
    match column with
    | .vInt x => .ok (.timestamp x)
    | _ => .error "bad get of int64"
  | .VID =>
    match column with
    | .vInt x => .ok (.id x)
    | _ => .error "bad get of int64"
  | _ =>
    match column with
    | .vInt x => .ok (.integer x)
    | .vDouble d => .ok (.doublePrecision d)
    | .vBool _ => .ok .empty
    | .vStr s => .ok (.str s)

/-- A yield column, abstracted by its optional alias and the textual form of its
expression. -/
structure YieldCol where
  colAlias : Option String
  exprText : String
  deriving DecidableEq, Repr

/-- GoExecutor::getResultColumnNames: the alias of each yield column when present,
otherwise the textual form of its expression. -/
def getResultColumnNames (yields : List YieldCol) : List String :=
  yields.map fun col =>
    match col.colAlias with
    | some a => a
    | none => col.exprText

/-! ## Row codec (NebulaCodecImpl::encode, NebulaCodecImpl::decode) -/

/-- Runtime value handed to the row codec (boost::any): the codec dispatches on the exact
C++ type, so 32-bit int and 64-bit int are distinct kinds, and any unlisted type is
represented by the other kind. -/
inductive CodecValue
  | i32 (x : Int)
  | i64 (x : Int)
  | f32 (f : F32Bits)
  | f64 (d : F64Bits)
  | b (x : Bool)
  | s (x : String)
  | other
  deriving DecidableEq, Repr

/-- One column of an encoded row. Modelled from the spec: the schemaless RowWriter of the
external dataman layer stores one typed cell per written value; a VID column kind exists
in the format, but the writer dispatch used by the codec never emits it. -/
inductive Cell
  | cBool (x : Bool)
  | cInt (x : Int)
  | cVid (x : Int)
  | cFloat (f : F32Bits)
  | cDouble (d : F64Bits)
  | cStr (x : String)
  deriving DecidableEq, Repr

/-- The per-value dispatch of NebulaCodecImpl::encode: int, string, double, float and
bool values are written as one cell; any other runtime type (notably int64) is only
logged and contributes nothing. -/
def cellsOf (v : CodecValue) : List Cell :=
  match v with
  | .i32 x => [.cInt x]
  | .s x => [.cStr x]
  | .f64 d => [.cDouble d]
  | .f32 f => [.cFloat f]
  | .b x => [.cBool x]
  | _ => []

/-- NebulaCodecImpl::encode: write every value in order through the dispatch. -/
def encode (values : List CodecValue) : List Cell :=
  values.flatMap cellsOf

/-- The single cell written for a value the encode dispatch accepts (unspecified junk for
the dropped kinds, which never reach it under the matching hypothesis). -/
def cellFor (v : CodecValue) : Cell :=
  match v with
  | .i32 x => .cInt x
  | .s x => .cStr x
  | .f64 d => .cDouble d
  | .f32 f => .cFloat f
  | .b x => .cBool x
  | .i64 x => .cInt x
  | .other => .cBool true

/-- Modelled from the spec: the row reader resolves a field name to the index of its first
occurrence in the schema that decode builds from the field list. -/
def firstIdx (schema : List (String × SupportedType)) (n : String) : Option Nat :=
  match schema with
  | [] => none
  | f :: rest => if f.1 = n then some 0 else (firstIdx rest n).map (· + 1)

/-- Modelled from the spec: a typed getter of the row reader succeeds exactly when the
stored column kind matches the requested supported type, returning the stored payload. -/
def cellAs (c : Cell) (t : SupportedType) : Option CodecValue :=
  match t, c with
  | .BOOL, .cBool x => some (.b x)
  | .INT, .cInt x => some (.i32 x)
  | .VID, .cVid x => some (.i64 x)
  | .FLOAT, .cFloat f => some (.f32 f)
  | .DOUBLE, .cDouble d => some (.f64 d)
  | .STRING, .cStr x => some (.s x)
  | _, _ => none

/-- Modelled from the spec: reading one named field of the encoded row by declared type
through the row reader. -/
def readCell (cells : List Cell) (schema : List (String × SupportedType)) (n : String)
    (t : SupportedType) : Option CodecValue :=
  match firstIdx schema n with
  | none => none
  | some j =>
    match cells.get? j with
    | none => none
    | some c => cellAs c t

/-- The declared types whose decode cases are placeholders that fall through: the
reserved date kinds, PATH and UNKNOWN. -/
def isReservedType (t : SupportedType) : Bool :=
  match t with
  | .TIMESTAMP | .YEAR | .YEARMONTH | .DATE | .DATETIME | .PATH | .UNKNOWN => true
  | _ => false

/-- The field loop of NebulaCodecImpl::decode: each of the six evaluable types reads its
field and inserts the value into the result map on success, while a failed read is only
logged; a reserved declared type falls through without touching the map. The map is
modelled as an association list where the newest insertion shadows older ones. -/
def decodeLoop (cells : List Cell) (schema : List (String × SupportedType)) :
    List (String × SupportedType) → List (String × CodecValue) →
      List (String × CodecValue)
  | [], m => m
  | f :: rest, m =>
    decodeLoop cells schema rest
      (if isReservedType f.2 then m
       else
         match readCell cells schema f.1 f.2 with
         | some v => (f.1, v) :: m
         | none => m)

/-- The entries the field loop inserts, in field order. -/
def insertedList (cells : List Cell) (schema : List (String × SupportedType))
    (fs : List (String × SupportedType)) : List (String × CodecValue) :=
  fs.filterMap (fun f =>
    if isReservedType f.2 then none
    else (readCell cells schema f.1 f.2).map (fun v => (f.1, v)))

/-- NebulaCodecImpl::decode: an empty encoded string or an empty field list is an error;
every other input succeeds with the result map of the field loop. -/
def decode (encoded : List Cell) (fields : List (String × SupportedType)) :
    Except String (List (String × CodecValue)) :=
  if encoded = [] then .error "encoded string is empty"
  else if fields = [] then .error "fields is not set"
  else .ok (decodeLoop encoded fields fields [])

/-- A value matches a field type when the codec can both write and re-read it: the five
runtime kinds the encode dispatch accepts, paired with their schema type. VID is absent
because encode drops 64-bit integers. -/
def valMatches (v : CodecValue) (t : SupportedType) : Bool :=
  match v, t with
  | .b _, .BOOL => true
  | .i32 _, .INT => true
  | .f32 _, .FLOAT => true
  | .f64 _, .DOUBLE => true
  | .s _, .STRING => true
  | _, _ => false

/-! ## Theorems -/

/-- C1: for both storage fan-outs of the GO executor (getNeighbors on each hop and
getVertexProps for destination tags), completeness 0 terminates the query as failed,
completeness strictly between 0 and 100 logs the shortfall and continues, and
completeness 100 continues normally. -/
theorem c1_completeness_trichotomy (c : Int) :
    (c = 0 → onStepOutCompleteness c = .failed ∧ onVertexPropsCompleteness c = .failed) ∧
    (0 < c → c < 100 → onStepOutCompleteness c = .loggedAndContinued ∧
      onVertexPropsCompleteness c = .loggedAndContinued) ∧
    (c = 100 → onStepOutCompleteness c = .continuedNormal ∧
      onVertexPropsCompleteness c = .continuedNormal) := by
  refine ⟨?_, ?_, ?_⟩
  · intro h
    subst h
    exact ⟨rfl, rfl⟩
  · intro h1 h2
    have h0 : c ≠ 0 := by omega
    have h100 : c ≠ 100 := by omega
    simp [onStepOutCompleteness, onVertexPropsCompleteness, h0, h100]
  · intro h
    subst h
    exact ⟨rfl, rfl⟩

/-- C1 witness: the trichotomy applied at the concrete completeness values 0, 50 and 100. -/
theorem c1_completeness_trichotomy_witness :
    onStepOutCompleteness 0 = .failed ∧
      onStepOutCompleteness 50 = .loggedAndContinued ∧
      onStepOutCompleteness 100 = .continuedNormal :=
  ⟨((c1_completeness_trichotomy 0).1 rfl).1,
   ((c1_completeness_trichotomy 50).2.1 (by norm_num) (by norm_num)).1,
   ((c1_completeness_trichotomy 100).2.2 rfl).1⟩

/-- C2 counterexample: at step count 0 prepareStep allocates a back tracker (the condition
in the source is steps different from 1), although 0 is not greater than 1; hence the back
tracker is not allocated if and only if the step count exceeds 1. -/
theorem c2_backtracker_counterexample :
    prepareStep 0 false = .ok true ∧ ¬ (1 < 0) :=
  ⟨rfl, by decide⟩

/-- C2 amended: the back tracker is allocated if and only if the step count differs from 1
(rather than if and only if it is greater than 1); in particular for steps equal to 1 no
back tracker exists and the interim root lookup is the identity on the source vertex id. -/
theorem c2_backtracker_amended :
    (∀ (steps : Nat) (upto : Bool) (alloc : Bool), prepareStep steps upto = .ok alloc →
      (alloc = true ↔ steps ≠ 1)) ∧
    (∀ (indexLookup : Int → String → Except String VariantType) (id : Int) (prop : String),
      getPropFromInterim none indexLookup id prop = indexLookup id prop) := by
  constructor
  · intro steps upto alloc h
    by_cases hu : upto
    · simp [prepareStep, hu] at h
    · simp [prepareStep, hu] at h
      cases alloc
      · simp only [Bool.not_false] at h
        have hs : steps = 1 := by simpa using h
        simp [hs]
      · simp only [Bool.not_true] at h
        have hs : steps ≠ 1 := by simpa using h
        simp [hs]
  · intro indexLookup id prop
    rfl

/-- C2 amended witness: at steps 2 the back tracker is allocated, and the identity root
lookup at steps 1 evaluated at a concrete index function. -/
theorem c2_backtracker_amended_witness :
    (true = true ↔ (2 : Nat) ≠ 1) ∧
      getPropFromInterim none (fun v _ => Except.ok (VariantType.vInt v)) 7 "col" =
        Except.ok (VariantType.vInt 7) :=
  ⟨c2_backtracker_amended.1 2 false true rfl,
   c2_backtracker_amended.2 (fun v _ => Except.ok (VariantType.vInt v)) 7 "col"⟩


theorem mem_baseProps (rev : Bool) (edgeTypes : List Int) (pd : PropDef) :
    pd ∈ baseProps rev edgeTypes ↔
      (∃ e ∈ edgeTypes, pd = dstPd e) ∨ (rev = true ∧ ∃ e ∈ edgeTypes, pd = rankPd e) := by
  unfold baseProps
  rw [List.mem_flatMap]
  constructor
  · rintro ⟨e, he, hm⟩
    rcases List.mem_cons.mp hm with rfl | hm2
    · exact Or.inl ⟨e, he, rfl⟩
    · cases rev
      · simp at hm2
      · simp at hm2
        exact Or.inr ⟨rfl, e, he, hm2⟩
  · rintro (⟨e, he, rfl⟩ | ⟨hrev, e, he, rfl⟩)
    · exact ⟨e, he, List.mem_cons_self _ _⟩
    · subst hrev
      exact ⟨e, he, by simp⟩

theorem mem_resolveSrcTagProps (toTagID : String → Option Int)
    (l : List (String × String)) (out : List PropDef)
    (h : resolveSrcTagProps toTagID l = .ok out) (pd : PropDef) :
    pd ∈ out ↔ ∃ tp ∈ l, ∃ tid, toTagID tp.1 = some tid ∧ pd = srcPd tp.2 tid := by
  induction l generalizing out with
  | nil =>
    simp only [resolveSrcTagProps, Except.ok.injEq] at h
    subst h
    simp
  | cons tp rest ih =>
    simp only [resolveSrcTagProps] at h
    cases htid : toTagID tp.1 with
    | none => rw [htid] at h; exact absurd h (by simp)
    | some tid =>
      rw [htid] at h
      cases hr : resolveSrcTagProps toTagID rest with
      | error e => rw [hr] at h; exact absurd h (by simp)
      | ok out2 =>
        rw [hr] at h
        simp only [Except.ok.injEq] at h
        subst h
        simp only [List.mem_cons, ih out2 hr]
        constructor
        · rintro (rfl | ⟨tp2, htp2, tid2, h1, h2⟩)
          · exact ⟨tp, Or.inl rfl, tid, htid, rfl⟩
          · exact ⟨tp2, Or.inr htp2, tid2, h1, h2⟩
        · rintro ⟨tp2, (rfl | htp2), tid2, h1, h2⟩
          · rw [htid] at h1
            cases h1
            exact Or.inl h2
          · exact Or.inr ⟨tp2, htp2, tid2, h1, h2⟩

theorem mem_resolveAliasProps (getEdgeTypeF : String → Option Int)
    (l : List (String × String)) (out : List PropDef)
    (h : resolveAliasProps getEdgeTypeF l = .ok out) (pd : PropDef) :
    pd ∈ out ↔ ∃ ap ∈ l, ap.2 ≠ propDST ∧
      ∃ et, getEdgeTypeF ap.1 = some et ∧ pd = aliasPd ap.2 et := by
  induction l generalizing out with
  | nil =>
    simp only [resolveAliasProps, Except.ok.injEq] at h
    subst h
    simp
  | cons ap rest ih =>
    simp only [resolveAliasProps] at h
    by_cases hd : ap.2 = propDST
    · rw [if_pos hd] at h
      rw [ih out h]
      constructor
      · rintro ⟨ap2, hap2, h1, h2⟩
        exact ⟨ap2, List.mem_cons_of_mem _ hap2, h1, h2⟩
      · rintro ⟨ap2, hmem, h1, h2⟩
        rcases List.mem_cons.mp hmem with rfl | hap2
        · exact absurd hd h1
        · exact ⟨ap2, hap2, h1, h2⟩
    · rw [if_neg hd] at h
      cases het : getEdgeTypeF ap.1 with
      | none => rw [het] at h; exact absurd h (by simp)
      | some et =>
        rw [het] at h
        cases hr : resolveAliasProps getEdgeTypeF rest with
        | error e => rw [hr] at h; exact absurd h (by simp)
        | ok out2 =>
          rw [hr] at h
          simp only [Except.ok.injEq] at h
          subst h
          simp only [List.mem_cons, ih out2 hr]
          constructor
          · rintro (rfl | ⟨ap2, hap2, h1, h2⟩)
            · exact ⟨ap, Or.inl rfl, hd, et, het, rfl⟩
            · exact ⟨ap2, Or.inr hap2, h1, h2⟩
          · rintro ⟨ap2, (rfl | hap2), h1, et2, h2, h3⟩
            · rw [het] at h2
              cases h2
              exact Or.inl h3
            · exact Or.inr ⟨ap2, hap2, h1, et2, h2, h3⟩

/-- C3: on a non-final hop the request is exactly one DST entry per traversed edge type and
nothing else; on the final hop, under the OVER-clause invariant that every registered edge
alias resolves to a traversed edge type, the request contains a property definition exactly
when it is a DST entry of a traversed edge type, a RANK entry of a traversed edge type with
reverse mode active, a referenced source tag property, or (only when not reverse) a
referenced edge alias property. -/
theorem c3_step_out_props (rev : Bool) (edgeTypes : List Int)
    (toTagID getEdgeTypeF : String → Option Int)
    (srcTagProps aliasProps : List (String × String)) (props : List PropDef)
    (hinv : ∀ a t, getEdgeTypeF a = some t → t ∈ edgeTypes) :
    (getStepOutProps false rev edgeTypes toTagID getEdgeTypeF srcTagProps aliasProps =
      .ok (edgeTypes.map dstPd)) ∧
    (getStepOutProps true rev edgeTypes toTagID getEdgeTypeF srcTagProps aliasProps =
        .ok props →
      ∀ pd, pd ∈ props ↔
        (∃ e ∈ edgeTypes, pd = dstPd e) ∨
        (rev = true ∧ ∃ e ∈ edgeTypes, pd = rankPd e) ∨
        (∃ tp ∈ srcTagProps, ∃ tid, toTagID tp.1 = some tid ∧ pd = srcPd tp.2 tid) ∨
        (rev = false ∧ ∃ ap ∈ aliasProps, ∃ et, getEdgeTypeF ap.1 = some et ∧
          pd = aliasPd ap.2 et)) := by
  constructor
  · rfl
  · intro h pd
    simp only [getStepOutProps, Bool.not_true,
      if_neg (by simp : ¬(false = true))] at h
    cases hsrc : resolveSrcTagProps toTagID srcTagProps with
    | error e =>
      simp only [hsrc] at h
      exact Except.noConfusion h
    | ok src =>
      simp only [hsrc] at h
      cases rev with
      | true =>
        simp only [eq_self_iff_true, if_true, Except.ok.injEq] at h
        subst h
        constructor
        · intro hm
          rcases List.mem_append.mp hm with hb | hs
          · rcases (mem_baseProps true edgeTypes pd).mp hb with h1 | ⟨_, h2⟩
            · exact Or.inl h1
            · exact Or.inr (Or.inl ⟨rfl, h2⟩)
          · exact Or.inr (Or.inr (Or.inl
              ((mem_resolveSrcTagProps toTagID _ _ hsrc pd).mp hs)))
        · rintro (h1 | ⟨_, h2⟩ | h3 | ⟨hfalse, _⟩)
          · exact List.mem_append.mpr (Or.inl
              ((mem_baseProps true edgeTypes pd).mpr (Or.inl h1)))
          · exact List.mem_append.mpr (Or.inl
              ((mem_baseProps true edgeTypes pd).mpr (Or.inr ⟨rfl, h2⟩)))
          · exact List.mem_append.mpr (Or.inr
              ((mem_resolveSrcTagProps toTagID _ _ hsrc pd).mpr h3))
          · exact absurd hfalse (by simp)
      | false =>
        simp only [if_neg (by simp : ¬(false = true))] at h
        cases hali : resolveAliasProps getEdgeTypeF aliasProps with
        | error e =>
          simp only [hali] at h
          exact Except.noConfusion h
        | ok ali =>
          simp only [hali, Except.ok.injEq] at h
          subst h
          constructor
          · intro hm
            rcases List.mem_append.mp hm with hm1 | hm3
            · rcases List.mem_append.mp hm1 with hb | hs
              · rcases (mem_baseProps false edgeTypes pd).mp hb with h1 | ⟨hfalse, _⟩
                · exact Or.inl h1
                · exact absurd hfalse (by simp)
              · exact Or.inr (Or.inr (Or.inl
                  ((mem_resolveSrcTagProps toTagID _ _ hsrc pd).mp hs)))
            · rcases (mem_resolveAliasProps getEdgeTypeF _ _ hali pd).mp hm3 with
                ⟨ap, hap, _, et, h1, h2⟩
              exact Or.inr (Or.inr (Or.inr ⟨rfl, ap, hap, et, h1, h2⟩))
          · rintro (h1 | ⟨hfalse, _⟩ | h3 | ⟨_, ap, hap, et, h1, h2⟩)
            · exact List.mem_append.mpr (Or.inl (List.mem_append.mpr (Or.inl
                ((mem_baseProps false edgeTypes pd).mpr (Or.inl h1)))))
            · exact absurd hfalse (by simp)
            · exact List.mem_append.mpr (Or.inl (List.mem_append.mpr (Or.inr
                ((mem_resolveSrcTagProps toTagID _ _ hsrc pd).mpr h3))))
            · by_cases hd : ap.2 = propDST
              · refine List.mem_append.mpr (Or.inl (List.mem_append.mpr (Or.inl
                  ((mem_baseProps false edgeTypes pd).mpr
                    (Or.inl ⟨et, hinv ap.1 et h1, ?_⟩)))))
                rw [h2, hd]
                rfl
              · exact List.mem_append.mpr (Or.inr
                  ((mem_resolveAliasProps getEdgeTypeF _ _ hali pd).mpr
                    ⟨ap, hap, hd, et, h1, h2⟩))

/-- C3 witness: the characterization instantiated with one traversed edge type, one source
tag property and one alias property, showing the alias property is part of the request. -/
theorem c3_step_out_props_witness :
    aliasPd "likeness" 3 ∈ [dstPd 3, srcPd "name" 7, aliasPd "likeness" 3] := by
  have hinv : ∀ (a : String) (t : Int),
      (fun (_ : String) => some (3 : Int)) a = some t → t ∈ [(3 : Int)] := by
    intro a t h
    simp only [Option.some.injEq] at h
    simp [← h]
  have h := (c3_step_out_props false [3] (fun _ => some 7) (fun _ => some 3)
      [("person", "name")] [("like", "likeness")]
      [dstPd 3, srcPd "name" 7, aliasPd "likeness" 3] hinv).2
  refine (h rfl (aliasPd "likeness" 3)).mpr ?_
  refine Or.inr (Or.inr (Or.inr ⟨rfl, ("like", "likeness"), ?_, 3, rfl, rfl⟩))
  simp

/-- C4: in reverse-mode projection, an edge alias matching the record type resolves
through the edge holder keyed by destination id, source id and absolute edge type, where
an absent key is an error and never a default; a mismatching edge falls back to the
reverse-side schema default, in which with no reverse schema the reserved DST, SRC and
RANK properties default to the integer 0 and every other property is an error, while a
known reverse schema supplies its own default. -/
theorem c4_edge_holder (h : EdgeHolder) (getEdgeTypeF : String → Option Int)
    (srcId dstId edgeType t : Int) (edgeName prop : String) :
    (assocLookup h.edges (srcId, dstId, edgeType) = none →
      ∃ msg, h.get srcId dstId edgeType prop = .error msg) ∧
    (getEdgeTypeF edgeName = some t → t = edgeType →
      getAliasPropRev h getEdgeTypeF srcId dstId edgeType edgeName prop =
        h.get dstId srcId (absInt edgeType) prop) ∧
    (getEdgeTypeF edgeName = some t → t ≠ edgeType →
      getAliasPropRev h getEdgeTypeF srcId dstId edgeType edgeName prop =
        h.getDefaultProp (absInt t) prop) ∧
    (assocLookup h.schemas t = none →
      ((prop = propDST ∨ prop = propSRC ∨ prop = propRANK) →
        h.getDefaultProp t prop = .ok (.vInt 0)) ∧
      (¬(prop = propDST ∨ prop = propSRC ∨ prop = propRANK) →
        ∃ msg, h.getDefaultProp t prop = .error msg)) ∧
    (∀ s, assocLookup h.schemas t = some s →
      h.getDefaultProp t prop = schemaGetDefaultProp s prop) := by
  refine ⟨?_, ?_, ?_, ?_, ?_⟩
  · intro hk
    simp only [EdgeHolder.get, hk]
    exact ⟨_, rfl⟩
  · intro h1 h2
    subst h2
    simp only [getAliasPropRev, h1]
    rw [if_neg (by simp)]
  · intro h1 h2
    simp only [getAliasPropRev, h1]
    rw [if_pos (fun hc => h2 hc.symm)]
  · intro hn
    constructor
    · intro hp
      simp only [EdgeHolder.getDefaultProp, hn]
      rw [if_pos hp]
    · intro hp
      simp only [EdgeHolder.getDefaultProp, hn]
      rw [if_neg hp]
      exact ⟨_, rfl⟩
  · intro s hs
    simp only [EdgeHolder.getDefaultProp, hs]

/-- C4 witness: a concrete empty edge holder with a matching alias resolving through the
holder key, and the reserved RANK default at an unknown reverse schema. -/
theorem c4_edge_holder_witness :
    getAliasPropRev ⟨[], []⟩ (fun _ => some 5) 1 2 5 "like" "x" =
        EdgeHolder.get ⟨[], []⟩ 2 1 (absInt 5) "x" ∧
      EdgeHolder.getDefaultProp ⟨[], []⟩ 5 "_RANK" = .ok (.vInt 0) :=
  ⟨(c4_edge_holder ⟨[], []⟩ (fun _ => some 5) 1 2 5 5 "like" "x").2.1 rfl rfl,
   ((c4_edge_holder ⟨[], []⟩ (fun _ => some 5) 1 2 5 5 "like" "_RANK").2.2.2.1 rfl).1
     (Or.inr (Or.inr rfl))⟩

/-- C7: provided the named edge resolves to a type, the getEdgeDstId getter returns 0 when
more than one edge type is traversed and the resolved type differs from the record edge
type; otherwise it returns the record source id in reverse mode and the record destination
id in forward mode. -/
theorem c7_get_edge_dst_id (numEdgeTypes : Nat) (getEdgeTypeF : String → Option Int)
    (rev : Bool) (srcId dstId edgeType t : Int) (edgeName : String)
    (hres : getEdgeTypeF edgeName = some t) :
    (1 < numEdgeTypes → t ≠ edgeType →
      getEdgeDstId numEdgeTypes getEdgeTypeF rev srcId dstId edgeType edgeName = .ok 0) ∧
    (t = edgeType →
      getEdgeDstId numEdgeTypes getEdgeTypeF rev srcId dstId edgeType edgeName =
        .ok (if rev then srcId else dstId)) ∧
    (¬ 1 < numEdgeTypes →
      getEdgeDstId numEdgeTypes getEdgeTypeF rev srcId dstId edgeType edgeName =
        .ok (if rev then srcId else dstId)) := by
  refine ⟨?_, ?_, ?_⟩
  · intro hn hne
    simp only [getEdgeDstId, if_pos hn, hres]
    rw [if_pos hne]
  · intro heq
    subst heq
    by_cases hn : 1 < numEdgeTypes
    · simp only [getEdgeDstId, if_pos hn, hres]
      rw [if_neg (by simp)]
    · simp only [getEdgeDstId, if_neg hn]
  · intro hn
    simp only [getEdgeDstId, if_neg hn]

/-- C7 witness: two traversed edge types with a mismatching resolved type yield 0, and a
matching resolved type yields the destination id in forward mode. -/
theorem c7_get_edge_dst_id_witness :
    getEdgeDstId 2 (fun _ => some 9) false 1 2 4 "e" = .ok 0 ∧
      getEdgeDstId 2 (fun _ => some 4) false 1 2 4 "e" = .ok 2 :=
  ⟨(c7_get_edge_dst_id 2 (fun _ => some 9) false 1 2 4 9 "e" rfl).1 (by norm_num)
      (by norm_num),
   (c7_get_edge_dst_id 2 (fun _ => some 4) false 1 2 4 4 "e" rfl).2.1 rfl⟩

theorem processRecords_distinct_spec (filter : Option (EdgeRecord → Except String Bool))
    (yieldEval : EdgeRecord → Except String (List VariantType))
    (hash : List VariantType → Nat) (recs : List EdgeRecord) (seen : List Nat)
    (out : List (List VariantType))
    (h : processRecords filter yieldEval true hash recs seen = .ok out) :
    (out.map hash).Nodup ∧ ∀ hv ∈ out.map hash, hv ∉ seen := by
  induction recs generalizing seen out with
  | nil =>
    simp only [processRecords, Except.ok.injEq] at h
    subst h
    simp
  | cons r rest ih =>
    simp only [processRecords] at h
    cases hfe : (match filter with | none => Except.ok true | some f => f r) with
    | error e =>
      simp only [hfe] at h
      exact Except.noConfusion h
    | ok keep =>
      simp only [hfe] at h
      by_cases hkeep : keep = true
      · rw [if_pos hkeep] at h
        cases hy : yieldEval r with
        | error e =>
          simp only [hy] at h
          exact Except.noConfusion h
        | ok record =>
          simp only [hy, eq_self_iff_true, if_true] at h
          by_cases hmem : hash record ∈ seen
          · rw [if_pos hmem] at h
            exact ih seen out h
          · rw [if_neg hmem] at h
            cases hrec : processRecords filter yieldEval true hash rest
                (hash record :: seen) with
            | error e =>
              simp only [hrec] at h
              exact Except.noConfusion h
            | ok out2 =>
              simp only [hrec, Except.ok.injEq] at h
              subst h
              obtain ⟨nd2, hni2⟩ := ih (hash record :: seen) out2 hrec
              constructor
              · refine List.nodup_cons.mpr ⟨?_, nd2⟩
                intro hc
                exact hni2 _ hc (List.mem_cons_self _ _)
              · intro hv hmem2
                rcases List.mem_cons.mp hmem2 with rfl | hv2
                · exact hmem
                · intro hs
                  exact hni2 _ hv2 (List.mem_cons_of_mem _ hs)
      · rw [if_neg hkeep] at h
        exact ih seen out h

/-- C8: with the distinct flag set, the records handed to the output callback are pairwise
distinct in hash over the projected column order: a candidate record is emitted only when
its hash was not emitted before. -/
theorem c8_distinct_rows (filter : Option (EdgeRecord → Except String Bool))
    (yieldEval : EdgeRecord → Except String (List VariantType))
    (hash : List VariantType → Nat) (recs : List EdgeRecord)
    (out : List (List VariantType))
    (h : processRecords filter yieldEval true hash recs [] = .ok out) :
    (out.map hash).Nodup :=
  (processRecords_distinct_spec filter yieldEval hash recs [] out h).1

/-- C8 witness: two records projecting to the same tuple are deduplicated to one emitted
record, whose hash list is duplicate free. -/
theorem c8_distinct_rows_witness :
    (([[VariantType.vInt 2]] : List (List VariantType)).map
      (fun l => l.length)).Nodup :=
  c8_distinct_rows none (fun r => .ok [VariantType.vInt r.dstId]) (fun l => l.length)
    [⟨1, 2, 3⟩, ⟨1, 2, 3⟩] [[VariantType.vInt 2]] rfl

/-- C5: a non-empty pushdown filter string reaches the get_neighbors request only when the
pushdown flag is on, the hop is final and the traversal is not reverse; the WHERE filter
of a reverse traversal is instead evaluated locally over the getter bundle during
projection, and a record whose filter evaluates to false is skipped. -/
theorem c5_filter_pushdown_local :
    (∀ (flag isFinal rev : Bool) (s : String),
      stepOutFilterPushdown flag isFinal rev s ≠ "" →
        flag = true ∧ isFinal = true ∧ rev = false) ∧
    (∀ (f : EdgeRecord → Except String Bool)
        (yieldEval : EdgeRecord → Except String (List VariantType))
        (distinct : Bool) (hash : List VariantType → Nat)
        (r : EdgeRecord) (rest : List EdgeRecord) (seen : List Nat),
      f r = .ok false →
        processRecords (some f) yieldEval distinct hash (r :: rest) seen =
          processRecords (some f) yieldEval distinct hash rest seen) := by
  constructor
  · intro flag isFinal rev s hne
    by_cases hc : (flag && isFinal && !rev) = true
    · have h1 := hc
      simp only [Bool.and_eq_true, Bool.not_eq_true'] at h1
      exact ⟨h1.1.1, h1.1.2, h1.2⟩
    · exfalso
      apply hne
      simp [stepOutFilterPushdown, hc]
  · intro f yieldEval distinct hash r rest seen hf
    simp [processRecords, hf]

/-- C5 witness: a concrete pushdown string passes only with flag on, final hop, forward
mode, and a concrete always-false filter skips the head record. -/
theorem c5_filter_pushdown_local_witness :
    (true = true ∧ true = true ∧ false = false) ∧
      processRecords (some fun _ => Except.ok false) (fun _ => Except.ok [])
          false (fun _ => 0) [⟨1, 2, 3⟩] [] =
        processRecords (some fun _ => Except.ok false) (fun _ => Except.ok [])
          false (fun _ => 0) [] [] :=
  ⟨c5_filter_pushdown_local.1 true true false "x"
      (by simp [stepOutFilterPushdown]),
   c5_filter_pushdown_local.2 (fun _ => Except.ok false) (fun _ => Except.ok [])
      false (fun _ => 0) ⟨1, 2, 3⟩ [] [] rfl⟩

/-- C6 counterexample: under the UNKNOWN declared type a boolean runtime value leaves the
response cell unset instead of selecting the boolean member from the runtime tag of the
value. -/
theorem c6_unknown_bool_counterexample :
    toColumnValue SupportedType.UNKNOWN (VariantType.vBool true) =
        .ok ColumnValue.empty ∧
      toColumnValue SupportedType.UNKNOWN (VariantType.vBool true) ≠
        .ok (ColumnValue.boolVal true) := by
  refine ⟨rfl, fun hc => ?_⟩
  exact ColumnValue.noConfusion (Except.ok.inj hc)

/-- C6 amended: the cell member is selected by the declared type (BOOL a bool, INT and
TIMESTAMP and VID a 64-bit integer, DOUBLE double precision, FLOAT single precision,
STRING a string); under UNKNOWN the member is selected from the runtime tag except that a
boolean value leaves the cell unset; column names are the alias when present, else the
textual form of the expression. -/
theorem c6_terminal_cells_amended (b : Bool) (x : Int) (d : F64Bits) (s : String)
    (yields : List YieldCol) :
    toColumnValue .BOOL (.vBool b) = .ok (.boolVal b) ∧
    toColumnValue .INT (.vInt x) = .ok (.integer x) ∧
    toColumnValue .TIMESTAMP (.vInt x) = .ok (.timestamp x) ∧
    toColumnValue .VID (.vInt x) = .ok (.id x) ∧
    toColumnValue .DOUBLE (.vDouble d) = .ok (.doublePrecision d) ∧
    toColumnValue .FLOAT (.vDouble d) = .ok (.singlePrecision d) ∧
    toColumnValue .STRING (.vStr s) = .ok (.str s) ∧
    toColumnValue .UNKNOWN (.vInt x) = .ok (.integer x) ∧
    toColumnValue .UNKNOWN (.vDouble d) = .ok (.doublePrecision d) ∧
    toColumnValue .UNKNOWN (.vStr s) = .ok (.str s) ∧
    toColumnValue .UNKNOWN (.vBool b) = .ok .empty ∧
    getResultColumnNames yields =
      yields.map (fun col => col.colAlias.getD col.exprText) := by
  refine ⟨rfl, rfl, rfl, rfl, rfl, rfl, rfl, rfl, rfl, rfl, rfl, ?_⟩
  unfold getResultColumnNames
  refine List.map_congr_left (fun col _ => ?_)
  cases col.colAlias <;> rfl

theorem assocLookup_mem {α β : Type} [DecidableEq α] (m : List (α × β)) (k : α) (v : β)
    (h : assocLookup m k = some v) : (k, v) ∈ m := by
  induction m with
  | nil => exact absurd h (by simp [assocLookup])
  | cons p rest ih =>
    rw [assocLookup] at h
    by_cases hp : p.1 = k
    · rw [if_pos hp] at h
      have hv := Option.some.inj h
      refine List.mem_cons.mpr (Or.inl ?_)
      rw [← hp, ← hv]
    · rw [if_neg hp] at h
      exact List.mem_cons_of_mem _ (ih h)

theorem assocLookup_eq_of_mem_nodup {α β : Type} [DecidableEq α] (m : List (α × β))
    (k : α) (v : β) (hmem : (k, v) ∈ m) (hnd : (m.map Prod.fst).Nodup) :
    assocLookup m k = some v := by
  induction m with
  | nil => simp at hmem
  | cons p rest ih =>
    simp only [List.map_cons, List.nodup_cons] at hnd
    rcases List.mem_cons.mp hmem with heq | hmem2
    · have h1 : p.1 = k := by rw [← heq]
      have h2 : p.2 = v := by rw [← heq]
      rw [assocLookup, if_pos h1, h2]
    · have hne : p.1 ≠ k := by
        intro hc
        refine hnd.1 ?_
        rw [hc]
        exact List.mem_map.mpr ⟨(k, v), hmem2, rfl⟩
      rw [assocLookup, if_neg hne]
      exact ih hmem2 hnd.2

theorem decodeLoop_eq (cells : List Cell) (schema fs : List (String × SupportedType))
    (m0 : List (String × CodecValue)) :
    decodeLoop cells schema fs m0 = (insertedList cells schema fs).reverse ++ m0 := by
  induction fs generalizing m0 with
  | nil => simp [decodeLoop, insertedList]
  | cons f rest ih =>
    rw [decodeLoop]
    by_cases hres : isReservedType f.2
    · rw [if_pos hres, ih]
      have he : insertedList cells schema (f :: rest) = insertedList cells schema rest := by
        simp [insertedList, hres]
      rw [he]
    · rw [if_neg hres]
      cases hr : readCell cells schema f.1 f.2 with
      | none =>
        simp only [hr]
        rw [ih]
        have he : insertedList cells schema (f :: rest) =
            insertedList cells schema rest := by
          simp [insertedList, hres, hr]
        rw [he]
      | some v =>
        simp only [hr]
        rw [ih]
        have he : insertedList cells schema (f :: rest) =
            (f.1, v) :: insertedList cells schema rest := by
          simp [insertedList, hres, hr]
        rw [he]
        simp [List.reverse_cons, List.append_assoc]

theorem insertedList_keys_sublist (cells : List Cell)
    (schema fs : List (String × SupportedType)) :
    ((insertedList cells schema fs).map Prod.fst).Sublist (fs.map Prod.fst) := by
  induction fs with
  | nil => simp [insertedList]
  | cons f rest ih =>
    by_cases hres : isReservedType f.2
    · have he : insertedList cells schema (f :: rest) = insertedList cells schema rest := by
        simp [insertedList, hres]
      rw [he, List.map_cons]
      exact ih.cons _
    · cases hr : readCell cells schema f.1 f.2 with
      | none =>
        have he : insertedList cells schema (f :: rest) =
            insertedList cells schema rest := by
          simp [insertedList, hres, hr]
        rw [he, List.map_cons]
        exact ih.cons _
      | some v =>
        have he : insertedList cells schema (f :: rest) =
            (f.1, v) :: insertedList cells schema rest := by
          simp [insertedList, hres, hr]
        rw [he, List.map_cons, List.map_cons]
        exact ih.cons₂ _

theorem mem_insertedList (cells : List Cell) (schema fs : List (String × SupportedType))
    (p : String × CodecValue) (hp : p ∈ insertedList cells schema fs) :
    ∃ f ∈ fs, f.1 = p.1 ∧ isReservedType f.2 = false ∧
      readCell cells schema f.1 f.2 = some p.2 := by
  rcases List.mem_filterMap.mp hp with ⟨f, hf, hmap⟩
  by_cases hres : isReservedType f.2
  · rw [if_pos hres] at hmap
    exact absurd hmap (by simp)
  · rw [if_neg hres] at hmap
    cases hr : readCell cells schema f.1 f.2 with
    | none =>
      rw [hr] at hmap
      exact absurd hmap (by simp)
    | some v =>
      rw [hr] at hmap
      simp only [Option.map_some'] at hmap
      have hpv := Option.some.inj hmap
      refine ⟨f, hf, ?_, by simpa using hres, ?_⟩
      · rw [← hpv]
      · rw [hr, ← hpv]

theorem insertedList_mem_intro (cells : List Cell)
    (schema fs : List (String × SupportedType)) (f : String × SupportedType)
    (hf : f ∈ fs) (hres : isReservedType f.2 = false) (v : CodecValue)
    (hr : readCell cells schema f.1 f.2 = some v) :
    (f.1, v) ∈ insertedList cells schema fs :=
  List.mem_filterMap.mpr ⟨f, hf, by simp [hres, hr]⟩

theorem cellsOf_matches (v : CodecValue) (t : SupportedType)
    (h : valMatches v t = true) :
    cellsOf v = [cellFor v] ∧ cellAs (cellFor v) t = some v ∧
      isReservedType t = false := by
  cases v <;> cases t <;>
    simp_all [valMatches, cellsOf, cellFor, cellAs, isReservedType]

theorem encode_eq_map (vals : List CodecValue) (fields : List (String × SupportedType))
    (h : List.Forall₂ (fun v f => valMatches v f.2 = true) vals fields) :
    encode vals = vals.map cellFor := by
  induction h with
  | nil => rfl
  | cons hvf hrest ih =>
    simp only [encode, List.flatMap_cons, List.map_cons] at ih ⊢
    rw [(cellsOf_matches _ _ hvf).1]
    simp only [List.singleton_append]
    rw [ih]

theorem firstIdx_get (fields : List (String × SupportedType))
    (hnd : (fields.map Prod.fst).Nodup) :
    ∀ (i : Nat) (hi : i < fields.length),
      firstIdx fields (fields.get ⟨i, hi⟩).1 = some i := by
  induction fields with
  | nil =>
    intro i hi
    simp at hi
  | cons f rest ih =>
    intro i hi
    simp only [List.map_cons, List.nodup_cons] at hnd
    cases i with
    | zero => simp [firstIdx]
    | succ k =>
      have hk : k < rest.length := by simpa using hi
      have hget : ((f :: rest).get ⟨k + 1, hi⟩) = rest.get ⟨k, hk⟩ := rfl
      rw [hget, firstIdx]
      have hne : f.1 ≠ (rest.get ⟨k, hk⟩).1 := by
        intro hc
        refine hnd.1 ?_
        rw [hc]
        exact List.mem_map.mpr ⟨_, List.get_mem rest k hk, rfl⟩
      rw [if_neg hne, ih hnd.2 k hk]
      rfl

/-- C10: decode fails exactly on an empty encoded string or an empty field list; on every
other input it succeeds, and every entry of the returned map comes from a non-reserved
field whose read succeeded, so reserved declared types and failed reads are silently
omitted rather than reported as errors. -/
theorem c10_decode_errors (cells : List Cell) (fields : List (String × SupportedType)) :
    ((∃ msg, decode cells fields = .error msg) ↔ (cells = [] ∨ fields = [])) ∧
    (∀ m, decode cells fields = .ok m →
      ∀ n v, assocLookup m n = some v →
        ∃ f ∈ fields, f.1 = n ∧ isReservedType f.2 = false ∧
          readCell cells fields f.1 f.2 = some v) := by
  constructor
  · constructor
    · rintro ⟨msg, h⟩
      by_cases hc : cells = []
      · exact Or.inl hc
      · by_cases hf : fields = []
        · exact Or.inr hf
        · rw [decode, if_neg hc, if_neg hf] at h
          exact Except.noConfusion h
    · rintro (hc | hf)
      · exact ⟨_, by rw [decode, if_pos hc]⟩
      · by_cases hc : cells = []
        · exact ⟨_, by rw [decode, if_pos hc]⟩
        · exact ⟨_, by rw [decode, if_neg hc, if_pos hf]⟩
  · intro m hm n v hl
    by_cases hc : cells = []
    · rw [decode, if_pos hc] at hm
      exact Except.noConfusion hm
    · by_cases hf : fields = []
      · rw [decode, if_neg hc, if_pos hf] at hm
        exact Except.noConfusion hm
      · rw [decode, if_neg hc, if_neg hf] at hm
        have hm2 := Except.ok.inj hm
        subst hm2
        have hmem := assocLookup_mem _ n v hl
        rw [decodeLoop_eq, List.append_nil, List.mem_reverse] at hmem
        rcases mem_insertedList cells fields fields (n, v) hmem with
          ⟨f, hfm, h1, h2, h3⟩
        exact ⟨f, hfm, h1, h2, h3⟩

/-- C10 witness: a one-field decode succeeds and its single map entry comes from the
successful non-reserved BOOL read. -/
theorem c10_decode_errors_witness :
    ∃ f ∈ [("a", SupportedType.BOOL)], f.1 = "a" ∧ isReservedType f.2 = false ∧
      readCell [Cell.cBool true] [("a", SupportedType.BOOL)] f.1 f.2 =
        some (CodecValue.b true) :=
  (c10_decode_errors [Cell.cBool true] [("a", SupportedType.BOOL)]).2
    [("a", CodecValue.b true)] rfl "a" (CodecValue.b true) rfl

/-- C9 counterexample: a VID value is a 64-bit integer, the encode dispatch has no int64
branch and drops it, so the composition of decode and encode does not return a VID row.
The encoding of the one-value VID row is empty and its decode is an error. -/
theorem c9_vid_roundtrip_counterexample :
    encode [CodecValue.i64 5] = [] ∧
      decode (encode [CodecValue.i64 5]) [("a", SupportedType.VID)] =
        .error "encoded string is empty" :=
  ⟨rfl, rfl⟩

/-- C9 amended: decode after encode round trips for every non-empty row whose values match
their field types among BOOL, INT, FLOAT, DOUBLE and STRING and whose field names are
distinct: the result map holds every original value under its field name. VID is excluded
because encode drops 64-bit integers. -/
theorem c9_roundtrip_amended (vals : List CodecValue)
    (fields : List (String × SupportedType))
    (hmatch : List.Forall₂ (fun v f => valMatches v f.2 = true) vals fields)
    (hnd : (fields.map Prod.fst).Nodup) (hne : vals ≠ [])
    (i : Nat) (hif : i < fields.length) (hiv : i < vals.length) :
    ∃ m, decode (encode vals) fields = .ok m ∧
      assocLookup m (fields.get ⟨i, hif⟩).1 = some (vals.get ⟨i, hiv⟩) := by
  have hcells : encode vals = vals.map cellFor := encode_eq_map vals fields hmatch
  have hcne : encode vals ≠ [] := by
    rw [hcells]
    simpa using hne
  have hfne : fields ≠ [] := by
    intro hc
    rw [hc] at hif
    simp at hif
  refine ⟨decodeLoop (encode vals) fields fields [], ?_, ?_⟩
  · rw [decode, if_neg hcne, if_neg hfne]
  · have hvm : valMatches (vals.get ⟨i, hiv⟩) ((fields.get ⟨i, hif⟩).2) = true :=
      hmatch.get hiv hif
    have h1 : firstIdx fields (fields.get ⟨i, hif⟩).1 = some i :=
      firstIdx_get fields hnd i hif
    have h2 : (encode vals).get? i = some (cellFor (vals.get ⟨i, hiv⟩)) := by
      rw [hcells, List.get?_map, List.get?_eq_get hiv]
      rfl
    have hread : readCell (encode vals) fields (fields.get ⟨i, hif⟩).1
        ((fields.get ⟨i, hif⟩).2) = some (vals.get ⟨i, hiv⟩) := by
      rw [readCell]
      simp only [h1, h2]
      exact (cellsOf_matches _ _ hvm).2.1
    have hmem : ((fields.get ⟨i, hif⟩).1, vals.get ⟨i, hiv⟩) ∈
        decodeLoop (encode vals) fields fields [] := by
      rw [decodeLoop_eq, List.append_nil, List.mem_reverse]
      exact insertedList_mem_intro _ _ _ _ (List.get_mem fields i hif)
        (cellsOf_matches _ _ hvm).2.2 _ hread
    have hknd : ((decodeLoop (encode vals) fields fields []).map Prod.fst).Nodup := by
      rw [decodeLoop_eq, List.append_nil, List.map_reverse, List.nodup_reverse]
      exact List.Nodup.sublist (insertedList_keys_sublist (encode vals) fields fields) hnd
    exact assocLookup_eq_of_mem_nodup _ _ _ hmem hknd

/-- C9 amended witness: a concrete one-column BOOL row round trips through the codec. -/
theorem c9_roundtrip_amended_witness :
    ∃ m, decode (encode [CodecValue.b true]) [("a", SupportedType.BOOL)] = .ok m ∧
      assocLookup m ([("a", SupportedType.BOOL)].get ⟨0, by norm_num⟩).1 =
        some ([CodecValue.b true].get ⟨0, by norm_num⟩) :=
  c9_roundtrip_amended [CodecValue.b true] [("a", SupportedType.BOOL)]
    (List.Forall₂.cons rfl List.Forall₂.nil) (by simp) (by simp) 0 (by norm_num)
    (by norm_num)

end Nebula
